import Mathlib

/-!
Verification of the file classification and aggregation engine of
`github_repo_stats.py` (function `get_language_stats` together with its
helper `should_exclude_path`).

The filesystem seen by `os.walk` is embedded as a tree of entries; a file
carries `some n` when reading it succeeds with `n` lines and `none` when
opening or reading it raises (the `except` branch); a directory carries a
`listable` flag that is `false` when `os.scandir` on it raises (in which
case `os.walk`, with its default error handler, yields nothing for it).
Python dictionaries are embedded as association lists in insertion order,
`fnmatch.fnmatch` as an executable glob matcher, and `os.path.splitext`
as the extraction of the suffix that starts at the last dot of the name,
provided a non-dot character precedes it.
-/

namespace RepoStats

/-- A filesystem entry as enumerated by `os.walk`. -/
inductive Entry : Type where
  | file (name : String) (lineCount : Option Nat) : Entry
  | dir (name : String) (listable : Bool) (children : List Entry) : Entry
deriving Repr

/-- An item of a glob character class: a literal character or a range. -/
inductive ClassItem : Type where
  | lit (c : Char) : ClassItem
  | range (lo hi : Char) : ClassItem
deriving Repr, DecidableEq

/-- Parse the items of a character class up to the closing bracket,
returning the items and the remaining characters, or `none` when the
class is not closed (in which case `fnmatch` treats the opening bracket
as a literal character). -/
def parseClassItems : List Char → Option (List ClassItem × List Char)
  | [] => none
  | ']' :: rest => some ([], rest)
  | c :: '-' :: d :: rest =>
    if d = ']' then some ([ClassItem.lit c, ClassItem.lit '-'], rest)
    else
      match parseClassItems rest with
      | some (items, r) => some (ClassItem.range c d :: items, r)
      | none => none
  | c :: rest =>
    match parseClassItems rest with
    | some (items, r) => some (ClassItem.lit c :: items, r)
    | none => none

/-- Parse the body of a character class; a bracket right at the start
(after the optional negation) is a literal member, as in `fnmatch`. -/
def parseClassBody (l : List Char) : Option (List ClassItem × List Char) :=
  match l with
  | ']' :: rest =>
    match parseClassItems rest with
    | some (items, r) => some (ClassItem.lit ']' :: items, r)
    | none => none
  | l => parseClassItems l

/-- Parse a character class after its opening bracket: an optional
leading negation marker, then the members. -/
def parseClass (l : List Char) : Option (Bool × List ClassItem × List Char) :=
  match l with
  | '!' :: rest =>
    match parseClassBody rest with
    | some (items, r) => some (true, items, r)
    | none => none
  | rest =>
    match parseClassBody rest with
    | some (items, r) => some (false, items, r)
    | none => none

/-- A compiled glob pattern token: `star` matches any run of characters
(including across path separators, as `fnmatch` translates it to a
regular-expression dot-star), `any` matches one character, `lit` one
literal character, `cls` a character class. -/
inductive GlobTok : Type where
  | star : GlobTok
  | any : GlobTok
  | lit (c : Char) : GlobTok
  | cls (neg : Bool) (items : List ClassItem) : GlobTok
deriving Repr, DecidableEq

theorem parseClassItems_length :
    ∀ (l : List Char) (items : List ClassItem) (r : List Char),
      parseClassItems l = some (items, r) → r.length < l.length := by
  intro l
  induction l using parseClassItems.induct with
  | case1 =>
    intro items r h
    simp [parseClassItems] at h
  | case2 rest =>
    intro items r h
    simp [parseClassItems] at h
    simp [h.2]
  | case3 c rest hc =>
    intro items r h
    rw [parseClassItems] at h
    · simp at h
      rw [← h.2]
      simp
      omega
    · exact hc
  | case4 c d rest hc hd items0 r0 heq ih =>
    intro items r h
    rw [parseClassItems] at h
    · simp [hd, heq] at h
      have := ih items0 r0 heq
      rw [← h.2]
      simp
      omega
    · exact hc
  | case5 c d rest hc hd heq ih =>
    intro items r h
    rw [parseClassItems] at h
    · simp [hd, heq] at h
    · exact hc
  | case6 c rest hc hshape items0 r0 heq ih =>
    intro items r h
    rw [parseClassItems] at h
    · rw [heq] at h
      simp at h
      have := ih items0 r0 heq
      rw [← h.2]
      simp
      omega
    · exact hc
    · exact hshape
  | case7 c rest hc hshape heq ih =>
    intro items r h
    rw [parseClassItems] at h
    · rw [heq] at h
      simp at h
    · exact hc
    · exact hshape

theorem parseClassBody_length :
    ∀ (l : List Char) (items : List ClassItem) (r : List Char),
      parseClassBody l = some (items, r) → r.length < l.length := by
  intro l items r h
  rcases l with _ | ⟨c, rest⟩
  · simp [parseClassBody, parseClassItems] at h
  · by_cases hc : c = ']'
    · subst hc
      rw [parseClassBody] at h
      split at h
      · rename_i items0 r0 heq
        simp at h
        have := parseClassItems_length rest items0 r0 heq
        rw [← h.2]
        simp
        omega
      · simp at h
    · rw [parseClassBody] at h
      · exact parseClassItems_length _ items r h
      · intro r1 hr
        injection hr with h1 _
        exact hc h1

theorem parseClass_length :
    ∀ (l : List Char) (neg : Bool) (items : List ClassItem) (r : List Char),
      parseClass l = some (neg, items, r) → r.length < l.length := by
  intro l neg items r h
  rcases l with _ | ⟨c, rest⟩
  · simp [parseClass, parseClassBody, parseClassItems] at h
  · by_cases hc : c = '!'
    · subst hc
      rw [parseClass] at h
      split at h
      · rename_i items0 r0 heq
        simp at h
        have := parseClassBody_length rest items0 r0 heq
        rw [← h.2.2]
        simp
        omega
      · simp at h
    · rw [parseClass] at h
      · split at h
        · rename_i items0 r0 heq
          simp at h
          have := parseClassBody_length _ items0 r0 heq
          rw [← h.2.2]
          omega
        · simp at h
      · intro r1 hr
        injection hr with h1 _
        exact hc h1

/-- Compile a glob pattern to tokens, treating an unclosed character
class as a literal opening bracket, as `fnmatch.translate` does. -/
def compilePat (l : List Char) : List GlobTok :=
  match l with
  | [] => []
  | '*' :: rest => GlobTok.star :: compilePat rest
  | '?' :: rest => GlobTok.any :: compilePat rest
  | '[' :: rest =>
    match h : parseClass rest with
    | some (neg, items, r) => GlobTok.cls neg items :: compilePat r
    | none => GlobTok.lit '[' :: compilePat rest
  | c :: rest => GlobTok.lit c :: compilePat rest
termination_by l.length
decreasing_by
  · simp
  · simp
  · have := parseClass_length rest neg items r h
    simp
    omega
  · simp
  · simp

/-- Does a character match one item of a character class? Ranges compare
code points, as the regular expression produced by `fnmatch` does. -/
def matchItem (c : Char) : ClassItem → Bool
  | ClassItem.lit d => c = d
  | ClassItem.range lo hi => lo ≤ c && c ≤ hi

/-- Does a character match a character class body? -/
def matchItems (c : Char) (items : List ClassItem) : Bool :=
  items.any (matchItem c)

/-- Match a compiled glob pattern against a whole string (anchored at
both ends, as `fnmatch` appends an end marker to the translation). -/
def globMatch : List GlobTok → List Char → Bool
  | [], [] => true
  | [], _ :: _ => false
  | GlobTok.star :: ps, [] => globMatch ps []
  | GlobTok.star :: ps, c :: cs =>
    globMatch ps (c :: cs) || globMatch (GlobTok.star :: ps) cs
  | GlobTok.any :: _, [] => false
  | GlobTok.any :: ps, _ :: cs => globMatch ps cs
  | GlobTok.lit _ :: _, [] => false
  | GlobTok.lit d :: ps, c :: cs => (d = c : Bool) && globMatch ps cs
  | GlobTok.cls _ _ :: _, [] => false
  | GlobTok.cls neg items :: ps, c :: cs =>
    (if neg then !(matchItems c items) else matchItems c items) && globMatch ps cs
termination_by ps cs => (cs.length, ps.length)

/-- `fnmatch.fnmatch(name, pat)` on a case-sensitive (POSIX) platform. -/
def fnmatch (name pat : String) : Bool :=
  globMatch (compilePat pat.toList) name.toList

/-- `should_exclude_path`, with the relative-path computation factored
into the caller: the source computes `os.path.relpath(path, repo_dir)`
and matches it against each pattern, returning false immediately when
the pattern collection is empty or absent. -/
def should_exclude_path (relPath : String) (excludePatterns : List String) : Bool :=
  if excludePatterns.isEmpty then false
  else excludePatterns.any (fun pat => fnmatch relPath pat)

/-- Index of the last dot of a name, if any. -/
def lastDotIdx : List Char → Option Nat
  | [] => none
  | c :: rest =>
    match lastDotIdx rest with
    | some i => some (i + 1)
    | none => if c = '.' then some 0 else none

/-- The extension component of `os.path.splitext` applied to a bare file
name: the suffix from the last dot on, provided some earlier character
of the name is not a dot (so a name of leading dots only, such as
`.gitignore`, has no extension); empty when there is no such dot. -/
def splitextExt (name : String) : String :=
  let cs := name.toList
  match lastDotIdx cs with
  | none => ""
  | some i => if (cs.take i).any (fun c => !(c = '.')) then String.mk (cs.drop i) else ""

/-- The code-tier extension table of `get_language_stats`, in source
order. -/
def code_extensions : List (String × String) :=
  [ (".py", "Python"),
    (".js", "JavaScript"),
    (".jsx", "JavaScript"),
    (".ts", "TypeScript"),
    (".tsx", "TypeScript"),
    (".html", "HTML"),
    (".css", "CSS"),
    (".scss", "SCSS"),
    (".sass", "SASS"),
    (".java", "Java"),
    (".c", "C"),
    (".cpp", "C++"),
    (".cs", "C#"),
    (".go", "Go"),
    (".rb", "Ruby"),
    (".php", "PHP"),
    (".swift", "Swift"),
    (".kt", "Kotlin"),
    (".rs", "Rust"),
    (".sh", "Shell"),
    (".json", "JSON"),
    (".xml", "XML"),
    (".yml", "YAML"),
    (".yaml", "YAML") ]

/-- The documentation-tier extension table. -/
def doc_extensions : List (String × String) :=
  [ (".md", "Markdown"),
    (".rst", "ReStructuredText"),
    (".txt", "Text") ]

/-- The active extension table: the code tier, extended with the
documentation tier when requested.  The two tiers have disjoint keys,
so appending the documentation entries is the same update the source
performs with `dict.update`. -/
def language_extensions (include_docs : Bool) : List (String × String) :=
  code_extensions ++ (if include_docs then doc_extensions else [])

/-- The built-in directory denylist. -/
def exclude_dirs : List String :=
  [".git", "node_modules", "venv", "env", "__pycache__", "dist", "build"]

/-- Options accepted by `get_language_stats`. -/
structure Options : Type where
  verbose : Bool
  include_docs : Bool
  exclude_patterns : List String
deriving Repr, DecidableEq

/-- The accumulated statistics: `stats` and `file_stats` are Python
dictionaries embedded as association lists in insertion order. -/
structure ScanState : Type where
  stats : List (String × Nat)
  total_lines : Nat
  file_stats : List (String × List (String × Nat))
deriving Repr, DecidableEq

/-- Lookup in an association list. -/
def alookup {α : Type} : List (String × α) → String → Option α
  | [], _ => none
  | (k, v) :: rest, key => if k = key then some v else alookup rest key

/-- Store a value under a key in an association list, overwriting the
existing binding or appending a new one, as assignment to a Python
dictionary does. -/
def aset {α : Type} : List (String × α) → String → α → List (String × α)
  | [], k, v => [(k, v)]
  | (k0, w) :: rest, k, v =>
    if k0 = k then (k0, v) :: rest else (k0, w) :: aset rest k v

/-- `stats[language] += n` on a `defaultdict(int)`: a missing key is
created with value `n`. -/
def bump : List (String × Nat) → String → Nat → List (String × Nat)
  | [], k, n => [(k, n)]
  | (k0, v) :: rest, k, n =>
    if k0 = k then (k0, v + n) :: rest else (k0, v) :: bump rest k n

/-- Read `file_stats[language]` on a `defaultdict(dict)`: a missing key
denotes the empty dictionary. -/
def fsGet (fs : List (String × List (String × Nat))) (lang : String) : List (String × Nat) :=
  (alookup fs lang).getD []

/-- `file_stats[language][rel_path] = n`. -/
def fsSet (fs : List (String × List (String × Nat))) (lang relPath : String) (n : Nat) :
    List (String × List (String × Nat)) :=
  aset fs lang (aset (fsGet fs lang) relPath n)

/-- The POSIX relative path of an entry, from the path components of
its enclosing directories and its own name, as `os.path.relpath`
returns it for a descendant of the scanned root. -/
def joinPath : List String → String
  | [] => ""
  | [x] => x
  | x :: xs => x ++ "/" ++ joinPath xs

/-- Relative path of the entry called `name` inside the directory whose
relative path components are `rel`. -/
def joinRel (rel : List String) (name : String) : String :=
  joinPath (rel ++ [name])

/-- The per-file scope decision of the walk body: a file whose relative
path matches an exclusion pattern is skipped with no language;
otherwise its extension is looked up in the active table, the mapped
language is attributed on a hit and the file is skipped on a miss. -/
def classifyFile (langExt : List (String × String)) (pats : List String)
    (relPath name : String) : Option String :=
  if should_exclude_path relPath pats then none
  else alookup langExt (splitextExt name)

/-- Processing of a single enumerated file: classification, then the
guarded read; when opening or reading raises (`lineCount = none`) the
exception handler leaves the statistics untouched.  On success the line
count is added to the language total and the grand total, and recorded
per file in verbose mode. -/
def processFile (langExt : List (String × String)) (verbose : Bool) (pats : List String)
    (rel : List String) (name : String) (lineCount : Option Nat) (s : ScanState) : ScanState :=
  match classifyFile langExt pats (joinRel rel name) name with
  | none => s
  | some language =>
    match lineCount with
    | none => s
    | some n =>
      { stats := bump s.stats language n
        total_lines := s.total_lines + n
        file_stats :=
          if verbose then fsSet s.file_stats language (joinRel rel name) n
          else s.file_stats }

/-- Process, in order, the files of one enumerated directory. -/
def walkFiles (langExt : List (String × String)) (verbose : Bool) (pats : List String)
    (rel : List String) : List Entry → ScanState → ScanState
  | [], s => s
  | Entry.file name lc :: rest, s =>
    walkFiles langExt verbose pats rel rest (processFile langExt verbose pats rel name lc s)
  | Entry.dir _ _ _ :: rest, s => walkFiles langExt verbose pats rel rest s

/-- Is a subdirectory pruned from the walk?  True when its bare name is
in the denylist or its relative path matches an exclusion pattern, the
filter the source applies in place to the `dirs` list. -/
def prunedDir (pats : List String) (rel : List String) (name : String) : Bool :=
  exclude_dirs.contains name || should_exclude_path (joinRel rel name) pats

/-- Recursion of `os.walk` below one enumerated directory: each kept
subdirectory is visited depth-first — its own files first, then its
subdirectories — before its following siblings.  An unlistable
directory yields nothing (the default `os.walk` error handler swallows
the `os.scandir` error). -/
def walkDirs (langExt : List (String × String)) (verbose : Bool) (pats : List String) :
    List String → List Entry → ScanState → ScanState
  | _, [], s => s
  | rel, Entry.file _ _ :: rest, s => walkDirs langExt verbose pats rel rest s
  | rel, Entry.dir name listable children :: rest, s =>
    walkDirs langExt verbose pats rel rest
      (if prunedDir pats rel name then s
       else if listable then
         walkDirs langExt verbose pats (rel ++ [name]) children
           (walkFiles langExt verbose pats (rel ++ [name]) children s)
       else s)
termination_by _ es => sizeOf es

/-- The whole of `get_language_stats`: start from empty dictionaries
and a zero total, process the files of the root, then walk its
subdirectories. -/
def get_language_stats (repo : List Entry) (opts : Options) : ScanState :=
  walkDirs (language_extensions opts.include_docs) opts.verbose opts.exclude_patterns [] repo
    (walkFiles (language_extensions opts.include_docs) opts.verbose opts.exclude_patterns [] repo
      { stats := [], total_lines := 0, file_stats := [] })

/-- The value `get_language_stats` returns to its caller: a triple with
the per-file statistics in verbose mode, a pair without them
otherwise — embedded as an optional third component. -/
def get_language_stats_result (repo : List Entry) (opts : Options) :
    List (String × Nat) × Nat × Option (List (String × List (String × Nat))) :=
  let s := get_language_stats repo opts
  if opts.verbose then (s.stats, s.total_lines, some s.file_stats)
  else (s.stats, s.total_lines, none)

/-! ## Flattening the walk

The walk is a left fold, over the sequence of files it counts, of a
single accumulation step.  The sequence is computed by `scanRecs`; the
fold form drives every aggregate property below. -/

/-- One counted file: its attributed language, its relative path and
its line count. -/
structure FileRec : Type where
  language : String
  relPath : String
  lineCount : Nat
deriving Repr, DecidableEq

/-- The records contributed by a single enumerated file: one record
when it is classified and readable, none otherwise. -/
def countedOfFile (langExt : List (String × String)) (pats : List String)
    (rel : List String) (name : String) (lineCount : Option Nat) : List FileRec :=
  match classifyFile langExt pats (joinRel rel name) name, lineCount with
  | some language, some n => [{ language := language, relPath := joinRel rel name, lineCount := n }]
  | _, _ => []

/-- Records contributed by the files of one enumerated directory. -/
def fileRecs (langExt : List (String × String)) (pats : List String)
    (rel : List String) : List Entry → List FileRec
  | [] => []
  | Entry.file name lc :: rest =>
    countedOfFile langExt pats rel name lc ++ fileRecs langExt pats rel rest
  | Entry.dir _ _ _ :: rest => fileRecs langExt pats rel rest

/-- Records contributed below one enumerated directory, in walk
order. -/
def dirRecs (langExt : List (String × String)) (pats : List String) :
    List String → List Entry → List FileRec
  | _, [] => []
  | rel, Entry.file _ _ :: rest => dirRecs langExt pats rel rest
  | rel, Entry.dir name listable children :: rest =>
    (if prunedDir pats rel name then []
     else if listable then
       fileRecs langExt pats (rel ++ [name]) children ++
         dirRecs langExt pats (rel ++ [name]) children
     else []) ++ dirRecs langExt pats rel rest
termination_by _ es => sizeOf es

/-- All records counted by a scan, in processing order. -/
def scanRecs (repo : List Entry) (opts : Options) : List FileRec :=
  fileRecs (language_extensions opts.include_docs) opts.exclude_patterns [] repo ++
    dirRecs (language_extensions opts.include_docs) opts.exclude_patterns [] repo

/-- The accumulation step for one counted file. -/
def step (verbose : Bool) (s : ScanState) (r : FileRec) : ScanState :=
  { stats := bump s.stats r.language r.lineCount
    total_lines := s.total_lines + r.lineCount
    file_stats :=
      if verbose then fsSet s.file_stats r.language r.relPath r.lineCount
      else s.file_stats }

theorem processFile_eq_fold (langExt : List (String × String)) (verbose : Bool)
    (pats : List String) (rel : List String) (name : String) (lc : Option Nat)
    (s : ScanState) :
    processFile langExt verbose pats rel name lc s =
      List.foldl (step verbose) s (countedOfFile langExt pats rel name lc) := by
  rcases h : classifyFile langExt pats (joinRel rel name) name with _ | language
  · rcases lc with _ | n <;> simp [processFile, countedOfFile, h]
  · rcases lc with _ | n <;> simp [processFile, countedOfFile, h, step]

theorem walkFiles_eq_fold (langExt : List (String × String)) (verbose : Bool)
    (pats : List String) (rel : List String) :
    ∀ (es : List Entry) (s : ScanState),
      walkFiles langExt verbose pats rel es s =
        List.foldl (step verbose) s (fileRecs langExt pats rel es) := by
  intro es
  induction es with
  | nil => intro s; rw [walkFiles, fileRecs]; rfl
  | cons e rest ih =>
    intro s
    rcases e with ⟨name, lc⟩ | ⟨name, listable, children⟩
    · rw [walkFiles, fileRecs, List.foldl_append, ← processFile_eq_fold]
      exact ih _
    · rw [walkFiles, fileRecs]
      exact ih s

theorem walkDirs_eq_fold (langExt : List (String × String)) (verbose : Bool)
    (pats : List String) :
    ∀ (rel : List String) (es : List Entry) (s : ScanState),
      walkDirs langExt verbose pats rel es s =
        List.foldl (step verbose) s (dirRecs langExt pats rel es) := by
  intro rel es s
  induction rel, es, s using walkDirs.induct langExt verbose pats with
  | case1 rel s =>
    rw [walkDirs, dirRecs]
    rfl
  | case2 rel name lc rest s ih =>
    rw [walkDirs, dirRecs]
    exact ih
  | case3 rel name listable children rest s ih1 ih2 =>
    rw [walkDirs, dirRecs, List.foldl_append]
    rcases h : prunedDir pats rel name with _ | _
    · rcases hl : listable with _ | _
      · simp only [h, hl] at ih2 ⊢
        simp at ih2 ⊢
        exact ih2
      · simp only [h, hl] at ih2 ⊢
        simp at ih2 ⊢
        rw [ih2, ih1, walkFiles_eq_fold]
    · simp only [h] at ih2 ⊢
      simp at ih2 ⊢
      exact ih2

/-- `get_language_stats` as a fold of the step over the counted
records. -/
theorem get_language_stats_eq_fold (repo : List Entry) (opts : Options) :
    get_language_stats repo opts =
      List.foldl (step opts.verbose)
        { stats := [], total_lines := 0, file_stats := [] } (scanRecs repo opts) := by
  rw [get_language_stats, scanRecs, List.foldl_append, ← walkFiles_eq_fold,
    ← walkDirs_eq_fold]

/-! ## Dictionary lemmas -/

/-- Sum of the values of an association list, as `sum(d.values())`. -/
def sumVals (m : List (String × Nat)) : Nat :=
  (m.map (fun p => p.2)).sum

/-- The total attributed to one language, `0` when absent. -/
def statVal (m : List (String × Nat)) (lang : String) : Nat :=
  (alookup m lang).getD 0

/-- Key membership, as the `in` operator on a Python dictionary. -/
def keyMem (m : List (String × Nat)) (lang : String) : Bool :=
  (alookup m lang).isSome

theorem sumVals_bump (m : List (String × Nat)) (k : String) (n : Nat) :
    sumVals (bump m k n) = sumVals m + n := by
  induction m with
  | nil => simp [bump, sumVals]
  | cons p rest ih =>
    rcases p with ⟨k0, v⟩
    by_cases h : k0 = k
    · simp [bump, h, sumVals]
      omega
    · simp [bump, h, sumVals] at ih ⊢
      omega

theorem alookup_bump_self (m : List (String × Nat)) (k : String) (n : Nat) :
    alookup (bump m k n) k = some ((alookup m k).getD 0 + n) := by
  induction m with
  | nil => simp [bump, alookup]
  | cons p rest ih =>
    rcases p with ⟨k0, v⟩
    by_cases h : k0 = k
    · simp [bump, h, alookup]
    · simp [bump, h, alookup, ih]

theorem alookup_bump_ne (m : List (String × Nat)) (k k2 : String) (n : Nat)
    (h : k2 ≠ k) : alookup (bump m k n) k2 = alookup m k2 := by
  induction m with
  | nil => simp [bump, alookup, Ne.symm h]
  | cons p rest ih =>
    rcases p with ⟨k0, v⟩
    by_cases h0 : k0 = k
    · subst h0
      simp [bump, alookup, Ne.symm h]
    · simp [bump, h0, alookup, ih]

theorem alookup_aset_self {α : Type} (m : List (String × α)) (k : String) (v : α) :
    alookup (aset m k v) k = some v := by
  induction m with
  | nil => simp [aset, alookup]
  | cons p rest ih =>
    rcases p with ⟨k0, w⟩
    by_cases h : k0 = k
    · simp [aset, h, alookup]
    · simp [aset, h, alookup, ih]

theorem alookup_aset_ne {α : Type} (m : List (String × α)) (k k2 : String) (v : α)
    (h : k2 ≠ k) : alookup (aset m k v) k2 = alookup m k2 := by
  induction m with
  | nil => simp [aset, alookup, Ne.symm h]
  | cons p rest ih =>
    rcases p with ⟨k0, w⟩
    by_cases h0 : k0 = k
    · subst h0
      simp [aset, alookup, Ne.symm h]
    · simp [aset, h0, alookup, ih]

theorem aset_of_absent {α : Type} (m : List (String × α)) (k : String) (v : α)
    (h : alookup m k = none) : aset m k v = m ++ [(k, v)] := by
  induction m with
  | nil => simp [aset]
  | cons p rest ih =>
    rcases p with ⟨k0, w⟩
    by_cases h0 : k0 = k
    · simp [alookup, h0] at h
    · simp [alookup, h0] at h
      simp [aset, h0, ih h]

/-- A fold of steps preserves the grand-total invariant. -/
theorem foldl_step_total_sum (verbose : Bool) :
    ∀ (recs : List FileRec) (s : ScanState), s.total_lines = sumVals s.stats →
      (List.foldl (step verbose) s recs).total_lines =
        sumVals (List.foldl (step verbose) s recs).stats := by
  intro recs
  induction recs with
  | nil => intro s h; simpa using h
  | cons r rest ih =>
    intro s h
    rw [List.foldl_cons]
    exact ih _ (by simp [step, sumVals_bump, h])

/-- C1.  For every scan, the returned grand total equals the sum of the
per-language totals. -/
theorem C1_total_lines_eq_sum_of_stats (repo : List Entry) (opts : Options) :
    (get_language_stats repo opts).total_lines =
      sumVals (get_language_stats repo opts).stats := by
  rw [get_language_stats_eq_fold]
  exact foldl_step_total_sum opts.verbose (scanRecs repo opts) _ (by simp [sumVals])

/-! ## Tree transformations

Each transformation removes from the tree the entries that a scan is
specified to ignore; proving the scan invariant under it shows those
entries contribute nothing to any result. -/

/-- Remove every directory whose name is in the denylist, at any
depth, together with its whole subtree. -/
def pruneDenylist : List Entry → List Entry
  | [] => []
  | Entry.file name lc :: rest => Entry.file name lc :: pruneDenylist rest
  | Entry.dir name listable children :: rest =>
    if exclude_dirs.contains name then pruneDenylist rest
    else Entry.dir name listable (pruneDenylist children) :: pruneDenylist rest
termination_by es => sizeOf es

/-- Remove every file and directory whose relative path matches one of
the exclusion patterns (dropping a matching directory's whole
subtree). -/
def prunePatterns (pats : List String) : List String → List Entry → List Entry
  | _, [] => []
  | rel, Entry.file name lc :: rest =>
    if should_exclude_path (joinRel rel name) pats then prunePatterns pats rel rest
    else Entry.file name lc :: prunePatterns pats rel rest
  | rel, Entry.dir name listable children :: rest =>
    if should_exclude_path (joinRel rel name) pats then prunePatterns pats rel rest
    else
      Entry.dir name listable (prunePatterns pats (rel ++ [name]) children) ::
        prunePatterns pats rel rest
termination_by _ es => sizeOf es

/-- Remove every file whose read fails. -/
def eraseUnreadable : List Entry → List Entry
  | [] => []
  | Entry.file _ none :: rest => eraseUnreadable rest
  | Entry.file name (some n) :: rest => Entry.file name (some n) :: eraseUnreadable rest
  | Entry.dir name listable children :: rest =>
    Entry.dir name listable (eraseUnreadable children) :: eraseUnreadable rest
termination_by es => sizeOf es

/-- Remove every file whose read fails and every directory whose
enumeration fails. -/
def eraseFailures : List Entry → List Entry
  | [] => []
  | Entry.file _ none :: rest => eraseFailures rest
  | Entry.file name (some n) :: rest => Entry.file name (some n) :: eraseFailures rest
  | Entry.dir _ false _ :: rest => eraseFailures rest
  | Entry.dir name true children :: rest =>
    Entry.dir name true (eraseFailures children) :: eraseFailures rest
termination_by es => sizeOf es

theorem fileRecs_pruneDenylist (langExt : List (String × String)) (pats : List String)
    (rel : List String) : ∀ (es : List Entry),
      fileRecs langExt pats rel (pruneDenylist es) = fileRecs langExt pats rel es := by
  intro es
  induction es with
  | nil => rw [pruneDenylist]
  | cons e rest ih =>
    rcases e with ⟨name, lc⟩ | ⟨name, listable, children⟩
    · rw [pruneDenylist, fileRecs, fileRecs, ih]
    · rw [pruneDenylist]
      by_cases h : exclude_dirs.contains name
      · rw [if_pos h, ih, fileRecs]
      · rw [if_neg h, fileRecs, fileRecs, ih]

theorem dirRecs_pruneDenylist (langExt : List (String × String)) (pats : List String) :
    ∀ (rel : List String) (es : List Entry),
      dirRecs langExt pats rel (pruneDenylist es) = dirRecs langExt pats rel es := by
  intro rel es
  induction rel, es using dirRecs.induct langExt pats with
  | case1 rel => rw [pruneDenylist]
  | case2 rel name lc rest ih =>
    rw [pruneDenylist, dirRecs, dirRecs]
    exact ih
  | case3 rel name listable children rest ih1 ih2 =>
    by_cases h : exclude_dirs.contains name
    · have hp : prunedDir pats rel name = true := by
        simp [prunedDir]
        exact Or.inl (by simpa using h)
      rw [pruneDenylist, if_pos h, ih2, dirRecs, if_pos hp]
      simp
    · rw [pruneDenylist, if_neg h, dirRecs, dirRecs, ih2]
      by_cases hp : prunedDir pats rel name
      · rw [if_pos hp, if_pos hp]
      · rw [if_neg hp, if_neg hp]
        rcases listable with _ | _
        · simp
        · simp only [if_true]
          rw [fileRecs_pruneDenylist, ih1]

theorem scanRecs_pruneDenylist (repo : List Entry) (opts : Options) :
    scanRecs (pruneDenylist repo) opts = scanRecs repo opts := by
  rw [scanRecs, scanRecs, fileRecs_pruneDenylist, dirRecs_pruneDenylist]

/-- C2.  A directory whose name is in the built-in denylist is pruned
wholesale: walking past it leaves the state untouched, and the whole
scan result is unchanged when every denylisted directory, with its
entire subtree, is removed from the tree — so no descendant file of
such a directory, whatever its extension and whatever the user
patterns, contributes to any result. -/
theorem C2_denylisted_dirs_contribute_nothing :
    (∀ (langExt : List (String × String)) (verbose : Bool) (pats : List String)
      (rel : List String) (name : String) (listable : Bool)
      (children rest : List Entry) (s : ScanState),
      exclude_dirs.contains name = true →
        walkDirs langExt verbose pats rel (Entry.dir name listable children :: rest) s =
          walkDirs langExt verbose pats rel rest s) ∧
    (∀ (repo : List Entry) (opts : Options),
      get_language_stats (pruneDenylist repo) opts = get_language_stats repo opts) := by
  constructor
  · intro langExt verbose pats rel name listable children rest s h
    rw [walkDirs]
    have hp : prunedDir pats rel name = true := by
      simp [prunedDir]
      exact Or.inl (by simpa using h)
    rw [if_pos hp]
  · intro repo opts
    rw [get_language_stats_eq_fold, get_language_stats_eq_fold, scanRecs_pruneDenylist]

/-- C2, instantiated: a `node_modules` directory holding a readable
Python file is walked past without touching the state. -/
theorem C2_denylisted_dirs_contribute_nothing_witness :
    walkDirs (language_extensions false) false [] []
        [Entry.dir ("node_modules") true [Entry.file ("dep.py") (some 100)]]
        { stats := [], total_lines := 0, file_stats := [] } =
      walkDirs (language_extensions false) false [] [] []
        { stats := [], total_lines := 0, file_stats := [] } :=
  C2_denylisted_dirs_contribute_nothing.1 (language_extensions false) false [] []
    ("node_modules") true [Entry.file ("dep.py") (some 100)] []
    { stats := [], total_lines := 0, file_stats := [] } (by decide)

theorem countedOfFile_none (langExt : List (String × String)) (pats : List String)
    (rel : List String) (name : String) :
    countedOfFile langExt pats rel name none = [] := by
  rcases h : classifyFile langExt pats (joinRel rel name) name with _ | language <;>
    simp [countedOfFile, h]

theorem fileRecs_eraseUnreadable (langExt : List (String × String)) (pats : List String)
    (rel : List String) : ∀ (es : List Entry),
      fileRecs langExt pats rel (eraseUnreadable es) = fileRecs langExt pats rel es := by
  intro es
  induction es with
  | nil => rw [eraseUnreadable]
  | cons e rest ih =>
    rcases e with ⟨name, _ | n⟩ | ⟨name, listable, children⟩
    · rw [eraseUnreadable, ih, fileRecs, countedOfFile_none]
      simp
    · rw [eraseUnreadable, fileRecs, fileRecs, ih]
    · rw [eraseUnreadable, fileRecs, fileRecs, ih]

theorem dirRecs_eraseUnreadable (langExt : List (String × String)) (pats : List String) :
    ∀ (rel : List String) (es : List Entry),
      dirRecs langExt pats rel (eraseUnreadable es) = dirRecs langExt pats rel es := by
  intro rel es
  induction rel, es using dirRecs.induct langExt pats with
  | case1 rel => rw [eraseUnreadable]
  | case2 rel name lc rest ih =>
    rcases lc with _ | n
    · rw [eraseUnreadable, ih, dirRecs]
    · rw [eraseUnreadable, dirRecs, dirRecs, ih]
  | case3 rel name listable children rest ih1 ih2 =>
    rw [eraseUnreadable, dirRecs, dirRecs, ih2]
    by_cases hp : prunedDir pats rel name
    · rw [if_pos hp, if_pos hp]
    · rw [if_neg hp, if_neg hp]
      rcases listable with _ | _
      · simp
      · simp only [if_true]
        rw [fileRecs_eraseUnreadable, ih1]

theorem fileRecs_eraseFailures (langExt : List (String × String)) (pats : List String)
    (rel : List String) : ∀ (es : List Entry),
      fileRecs langExt pats rel (eraseFailures es) = fileRecs langExt pats rel es := by
  intro es
  induction es with
  | nil => rw [eraseFailures]
  | cons e rest ih =>
    rcases e with ⟨name, _ | n⟩ | ⟨name, _ | _, children⟩
    · rw [eraseFailures, ih, fileRecs, countedOfFile_none]
      simp
    · rw [eraseFailures, fileRecs, fileRecs, ih]
    · rw [eraseFailures, ih, fileRecs]
    · rw [eraseFailures, fileRecs, fileRecs, ih]

theorem dirRecs_eraseFailures (langExt : List (String × String)) (pats : List String) :
    ∀ (rel : List String) (es : List Entry),
      dirRecs langExt pats rel (eraseFailures es) = dirRecs langExt pats rel es := by
  intro rel es
  induction rel, es using dirRecs.induct langExt pats with
  | case1 rel => rw [eraseFailures]
  | case2 rel name lc rest ih =>
    rcases lc with _ | n
    · rw [eraseFailures, ih, dirRecs]
    · rw [eraseFailures, dirRecs, dirRecs, ih]
  | case3 rel name listable children rest ih1 ih2 =>
    rcases listable with _ | _
    · rw [eraseFailures, ih2, dirRecs]
      simp
    · rw [eraseFailures, dirRecs, dirRecs, ih2]
      by_cases hp : prunedDir pats rel name
      · rw [if_pos hp, if_pos hp]
      · rw [if_neg hp, if_neg hp]
        simp only [if_true]
        rw [fileRecs_eraseFailures, ih1]

/-- C4.  A per-file read failure is absorbed by the handler: processing
that file returns the state exactly as it was, and removing every
unreadable file from the tree changes no result of the scan. -/
theorem C4_unreadable_file_leaves_state_unchanged :
    (∀ (langExt : List (String × String)) (verbose : Bool) (pats : List String)
      (rel : List String) (name : String) (s : ScanState),
      processFile langExt verbose pats rel name none s = s) ∧
    (∀ (repo : List Entry) (opts : Options),
      get_language_stats (eraseUnreadable repo) opts = get_language_stats repo opts) := by
  constructor
  · intro langExt verbose pats rel name s
    rw [processFile]
    rcases h : classifyFile langExt pats (joinRel rel name) name with _ | language <;> simp
  · intro repo opts
    rw [get_language_stats_eq_fold, get_language_stats_eq_fold, scanRecs, scanRecs,
      fileRecs_eraseUnreadable, dirRecs_eraseUnreadable]

/-- C10.  The scan is total over the tree contents: every per-file and
per-directory failure is absorbed locally — an unlistable directory is
walked past with the state untouched, and removing all unreadable
files and unlistable directories from the tree changes no result. -/
theorem C10_failures_absorbed :
    (∀ (langExt : List (String × String)) (verbose : Bool) (pats : List String)
      (rel : List String) (name : String) (children rest : List Entry) (s : ScanState),
      walkDirs langExt verbose pats rel (Entry.dir name false children :: rest) s =
        walkDirs langExt verbose pats rel rest s) ∧
    (∀ (repo : List Entry) (opts : Options),
      get_language_stats (eraseFailures repo) opts = get_language_stats repo opts) := by
  constructor
  · intro langExt verbose pats rel name children rest s
    rw [walkDirs]
    by_cases hp : prunedDir pats rel name
    · rw [if_pos hp]
    · rw [if_neg hp]
      simp
  · intro repo opts
    rw [get_language_stats_eq_fold, get_language_stats_eq_fold, scanRecs, scanRecs,
      fileRecs_eraseFailures, dirRecs_eraseFailures]

theorem should_exclude_path_nil (relPath : String) :
    should_exclude_path relPath [] = false := rfl

theorem countedOfFile_of_not_excluded (langExt : List (String × String))
    (pats : List String) (rel : List String) (name : String) (lc : Option Nat)
    (h : should_exclude_path (joinRel rel name) pats = false) :
    countedOfFile langExt [] rel name lc = countedOfFile langExt pats rel name lc := by
  simp only [countedOfFile, classifyFile, h, should_exclude_path_nil]

theorem countedOfFile_of_excluded (langExt : List (String × String))
    (pats : List String) (rel : List String) (name : String) (lc : Option Nat)
    (h : should_exclude_path (joinRel rel name) pats = true) :
    countedOfFile langExt pats rel name lc = [] := by
  rcases lc with _ | n <;> simp [countedOfFile, classifyFile, h]

theorem fileRecs_prunePatterns (langExt : List (String × String)) (pats : List String)
    (rel : List String) : ∀ (es : List Entry),
      fileRecs langExt [] rel (prunePatterns pats rel es) = fileRecs langExt pats rel es := by
  intro es
  induction es with
  | nil =>
    rw [prunePatterns]
    simp [fileRecs]
  | cons e rest ih =>
    rcases e with ⟨name, lc⟩ | ⟨name, listable, children⟩
    · by_cases h : should_exclude_path (joinRel rel name) pats
      · rw [prunePatterns, if_pos h, ih, fileRecs, countedOfFile_of_excluded langExt pats rel name lc h]
        simp
      · rw [prunePatterns, if_neg h, fileRecs, fileRecs, ih,
          countedOfFile_of_not_excluded langExt pats rel name lc (by simpa using h)]
    · by_cases h : should_exclude_path (joinRel rel name) pats
      · rw [prunePatterns, if_pos h, ih, fileRecs]
      · rw [prunePatterns, if_neg h, fileRecs, fileRecs, ih]

theorem prunedDir_nil_eq (pats : List String) (rel : List String) (name : String)
    (h : should_exclude_path (joinRel rel name) pats = false) :
    prunedDir [] rel name = prunedDir pats rel name := by
  rw [prunedDir, prunedDir, h, should_exclude_path_nil]

theorem dirRecs_prunePatterns (langExt : List (String × String)) (pats : List String) :
    ∀ (rel : List String) (es : List Entry),
      dirRecs langExt [] rel (prunePatterns pats rel es) = dirRecs langExt pats rel es := by
  intro rel es
  induction rel, es using dirRecs.induct langExt pats with
  | case1 rel =>
    rw [prunePatterns]
    simp [dirRecs]
  | case2 rel name lc rest ih =>
    by_cases h : should_exclude_path (joinRel rel name) pats
    · rw [prunePatterns, if_pos h, ih, dirRecs]
    · rw [prunePatterns, if_neg h, dirRecs, dirRecs, ih]
  | case3 rel name listable children rest ih1 ih2 =>
    by_cases h : should_exclude_path (joinRel rel name) pats
    · have hp : prunedDir pats rel name = true := by
        simp [prunedDir]
        exact Or.inr h
      rw [prunePatterns, if_pos h, ih2, dirRecs, if_pos hp]
      simp
    · rw [prunePatterns, if_neg h, dirRecs, dirRecs, ih2,
        prunedDir_nil_eq pats rel name (by simpa using h)]
      by_cases hp : prunedDir pats rel name
      · rw [if_pos hp, if_pos hp]
      · rw [if_neg hp, if_neg hp]
        rcases listable with _ | _
        · simp
        · simp only [if_true]
          rw [fileRecs_prunePatterns, ih1]

/-- C6.  Exclusion patterns remove exactly the matching files and the
subtrees of the matching directories: scanning with patterns equals
scanning, with no patterns at all, the tree from which every entry
whose relative path matches a pattern has been removed (dropping a
matching directory's whole subtree) — every other file's contribution
is untouched. -/
theorem C6_patterns_remove_exactly_matching_subtrees (repo : List Entry) (opts : Options) :
    get_language_stats repo opts =
      get_language_stats (prunePatterns opts.exclude_patterns [] repo)
        { verbose := opts.verbose, include_docs := opts.include_docs,
          exclude_patterns := [] } := by
  rw [get_language_stats_eq_fold, get_language_stats_eq_fold, scanRecs, scanRecs]
  simp only []
  rw [fileRecs_prunePatterns, dirRecs_prunePatterns]

theorem lastDotIdx_of_no_dot :
    ∀ (cs : List Char), '.' ∉ cs → lastDotIdx cs = none := by
  intro cs h
  induction cs with
  | nil => rw [lastDotIdx]
  | cons c rest ih =>
    simp only [List.mem_cons] at h
    push_neg at h
    rw [lastDotIdx, ih h.2]
    simp [Ne.symm h.1]

theorem splitextExt_of_no_dot (name : String) (h : name.toList.contains '.' = false) :
    splitextExt name = "" := by
  rw [splitextExt, lastDotIdx_of_no_dot name.toList (by simpa using h)]

theorem alookup_language_extensions_empty (d : Bool) :
    alookup (language_extensions d) "" = none := by
  rcases d with _ | _ <;> decide

/-- C3.  Per-file classification: a file whose relative path matches an
exclusion pattern gets no language; otherwise its extension — exact and
case-sensitive, as `os.path.splitext` cuts it — is looked up in the
active table, attributing the mapped language on a hit and nothing on a
miss.  In particular a file called `X.PY` is never classified at all
(so never counted as Python), and neither is a dotless file name. -/
theorem C3_classification_procedure :
    (∀ (langExt : List (String × String)) (pats : List String) (relPath name : String),
      should_exclude_path relPath pats = true →
        classifyFile langExt pats relPath name = none) ∧
    (∀ (langExt : List (String × String)) (pats : List String) (relPath name : String),
      should_exclude_path relPath pats = false →
        classifyFile langExt pats relPath name = alookup langExt (splitextExt name)) ∧
    (∀ (d : Bool) (pats : List String) (relPath : String),
      classifyFile (language_extensions d) pats relPath ("X.PY") = none) ∧
    (∀ (d : Bool) (pats : List String) (relPath name : String),
      name.toList.contains '.' = false →
        classifyFile (language_extensions d) pats relPath name = none) := by
  refine ⟨?_, ?_, ?_, ?_⟩
  · intro langExt pats relPath name h
    simp [classifyFile, h]
  · intro langExt pats relPath name h
    simp [classifyFile, h]
  · intro d pats relPath
    rcases h : should_exclude_path relPath pats with _ | _
    · simp [classifyFile, h]
      have hx : splitextExt ("X.PY") = (".PY") := by decide
      rw [hx]
      rcases d with _ | _ <;> decide
    · simp [classifyFile, h]
  · intro d pats relPath name h
    rcases he : should_exclude_path relPath pats with _ | _
    · simp [classifyFile, he, splitextExt_of_no_dot name h,
        alookup_language_extensions_empty]
    · simp [classifyFile, he]

/-- C3, instantiated: an excluded path is unclassified, `a.py` maps to
Python through the table, `X.PY` and a dotless name map to nothing. -/
theorem C3_classification_procedure_witness :
    classifyFile (language_extensions false) [] ("a.py") ("a.py") =
        alookup (language_extensions false) (splitextExt ("a.py")) ∧
      classifyFile (language_extensions false) [] ("p")  ("X.PY") = none ∧
      classifyFile (language_extensions true) [] ("p") ("README") = none :=
  ⟨C3_classification_procedure.2.1 (language_extensions false) [] ("a.py") ("a.py") rfl,
   C3_classification_procedure.2.2.1 false [] ("p"),
   C3_classification_procedure.2.2.2 true [] ("p") ("README") (by decide)⟩

/-- C8.  The scan returns the per-language totals, the grand total and,
exactly in verbose mode, the per-file statistics. -/
theorem C8_result_shape (repo : List Entry) (opts : Options) :
    get_language_stats_result repo opts =
      ((get_language_stats repo opts).stats,
        (get_language_stats repo opts).total_lines,
        if opts.verbose then some (get_language_stats repo opts).file_stats else none) ∧
    ((get_language_stats_result repo opts).2.2.isSome = opts.verbose) := by
  rcases h : opts.verbose with _ | _ <;>
    simp [get_language_stats_result, h]

theorem keyMem_bump (m : List (String × Nat)) (k k2 : String) (n : Nat) :
    keyMem (bump m k n) k2 = (keyMem m k2 || (k2 = k : Bool)) := by
  by_cases h : k2 = k
  · subst h
    simp [keyMem, alookup_bump_self]
  · simp [keyMem, alookup_bump_ne m k k2 n h, h]

theorem foldl_step_keyMem (verbose : Bool) :
    ∀ (recs : List FileRec) (s : ScanState) (lang : String),
      keyMem (List.foldl (step verbose) s recs).stats lang =
        (keyMem s.stats lang || recs.any (fun r => r.language = lang)) := by
  intro recs
  induction recs with
  | nil => intro s lang; simp
  | cons r rest ih =>
    intro s lang
    rw [List.foldl_cons, ih, List.any_cons]
    simp only [step, keyMem_bump]
    have hd : (decide (lang = r.language)) = (decide (r.language = lang)) :=
      decide_eq_decide.mpr ⟨Eq.symm, Eq.symm⟩
    rw [hd, Bool.or_assoc]

/-- C9.  Every counted file — an empty one included — creates an entry
for its language in the per-language totals; concretely, a scan of a
single empty Python file yields a `Python` entry of value `0` and, in
verbose mode, a per-file entry of value `0`, rather than omitting the
language. -/
theorem C9_counted_file_creates_language_entry :
    (∀ (repo : List Entry) (opts : Options) (r : FileRec),
      r ∈ scanRecs repo opts →
        keyMem (get_language_stats repo opts).stats r.language = true) ∧
    (get_language_stats [Entry.file ("a.py") (some 0)]
        { verbose := true, include_docs := false, exclude_patterns := [] } =
      { stats := [(("Python"), 0)], total_lines := 0,
        file_stats := [(("Python"), [(("a.py"), 0)])] }) := by
  constructor
  · intro repo opts r hr
    rw [get_language_stats_eq_fold, foldl_step_keyMem]
    have : (scanRecs repo opts).any (fun x => x.language = r.language) = true := by
      rw [List.any_eq_true]
      exact ⟨r, hr, by simp⟩
    rw [this]
    simp
  · simp [get_language_stats, walkDirs, walkFiles, processFile, classifyFile,
      should_exclude_path, splitextExt, lastDotIdx, joinRel, joinPath, alookup,
      language_extensions, code_extensions, bump, fsSet, fsGet, aset]

/-- C9, instantiated: the empty Python file's language is a key of the
returned totals. -/
theorem C9_counted_file_creates_language_entry_witness :
    keyMem (get_language_stats [Entry.file ("a.py") (some 0)]
        { verbose := true, include_docs := false, exclude_patterns := [] }).stats
      ("Python") = true :=
  C9_counted_file_creates_language_entry.1
    [Entry.file ("a.py") (some 0)]
    { verbose := true, include_docs := false, exclude_patterns := [] }
    { language := ("Python"), relPath := ("a.py"), lineCount := 0 }
    (by simp [scanRecs, fileRecs, dirRecs, countedOfFile, classifyFile,
      should_exclude_path, splitextExt, lastDotIdx, joinRel, joinPath, alookup,
      language_extensions, code_extensions])

/-! ## The documentation tier -/

/-- The languages of the code tier. -/
def codeLangs : List String := code_extensions.map (fun p => p.2)

/-- The languages of the documentation tier. -/
def docLangs : List String := doc_extensions.map (fun p => p.2)

theorem alookup_append_of_some {α : Type} (m1 m2 : List (String × α)) (k : String)
    (v : α) (h : alookup m1 k = some v) : alookup (m1 ++ m2) k = some v := by
  induction m1 with
  | nil => simp [alookup] at h
  | cons p rest ih =>
    rcases p with ⟨k0, w⟩
    by_cases h0 : k0 = k
    · simp [alookup, h0] at h ⊢
      exact h
    · simp [alookup, h0] at h ⊢
      exact ih h

theorem alookup_append_of_none {α : Type} (m1 m2 : List (String × α)) (k : String)
    (h : alookup m1 k = none) : alookup (m1 ++ m2) k = alookup m2 k := by
  induction m1 with
  | nil => simp
  | cons p rest ih =>
    rcases p with ⟨k0, w⟩
    by_cases h0 : k0 = k
    · simp [alookup, h0] at h
    · simp [alookup, h0] at h ⊢
      exact ih h

theorem alookup_mem_values {α : Type} (m : List (String × α)) (k : String) (v : α)
    (h : alookup m k = some v) : v ∈ m.map (fun p => p.2) := by
  induction m with
  | nil => simp [alookup] at h
  | cons p rest ih =>
    rcases p with ⟨k0, w⟩
    by_cases h0 : k0 = k
    · simp [alookup, h0] at h
      simp [h]
    · simp [alookup, h0] at h
      simp [ih h]

theorem docLangs_not_code :
    ∀ v ∈ docLangs, codeLangs.contains v = false := by decide

theorem language_extensions_false : language_extensions false = code_extensions := by
  simp [language_extensions]

theorem language_extensions_true :
    language_extensions true = code_extensions ++ doc_extensions := by
  simp [language_extensions]

theorem countedOfFile_code_filter (pats : List String) (rel : List String)
    (name : String) (lc : Option Nat) :
    countedOfFile (language_extensions false) pats rel name lc =
      (countedOfFile (language_extensions true) pats rel name lc).filter
        (fun r => codeLangs.contains r.language) := by
  rw [language_extensions_false, language_extensions_true]
  rcases he : should_exclude_path (joinRel rel name) pats with _ | _
  · rcases lc with _ | n
    · rw [countedOfFile_none, countedOfFile_none]
      rfl
    · rcases hc : alookup code_extensions (splitextExt name) with _ | w
      · rcases hd : alookup doc_extensions (splitextExt name) with _ | u
        · have hcd : alookup (code_extensions ++ doc_extensions) (splitextExt name) = none := by
            rw [alookup_append_of_none _ _ _ hc, hd]
          simp [countedOfFile, classifyFile, he, hc, hcd]
        · have hcd : alookup (code_extensions ++ doc_extensions) (splitextExt name) = some u := by
            rw [alookup_append_of_none _ _ _ hc, hd]
          have hu : u ∉ codeLangs := by
            simpa using docLangs_not_code u
              (alookup_mem_values doc_extensions (splitextExt name) u hd)
          simp [countedOfFile, classifyFile, he, hc, hcd, hu]
      · have hcd : alookup (code_extensions ++ doc_extensions) (splitextExt name) = some w :=
          alookup_append_of_some _ _ _ _ hc
        have hw : w ∈ codeLangs :=
          alookup_mem_values code_extensions (splitextExt name) w hc
        simp [countedOfFile, classifyFile, he, hc, hcd, hw]
  · simp [countedOfFile, classifyFile, he]

theorem fileRecs_code_filter (pats : List String) (rel : List String) :
    ∀ (es : List Entry),
      fileRecs (language_extensions false) pats rel es =
        (fileRecs (language_extensions true) pats rel es).filter
          (fun r => codeLangs.contains r.language) := by
  intro es
  induction es with
  | nil => rfl
  | cons e rest ih =>
    rcases e with ⟨name, lc⟩ | ⟨name, listable, children⟩
    · rw [fileRecs, fileRecs, List.filter_append, ← ih, countedOfFile_code_filter]
    · rw [fileRecs, fileRecs, ih]

theorem dirRecs_code_filter (pats : List String) :
    ∀ (rel : List String) (es : List Entry),
      dirRecs (language_extensions false) pats rel es =
        (dirRecs (language_extensions true) pats rel es).filter
          (fun r => codeLangs.contains r.language) := by
  intro rel es
  induction rel, es using dirRecs.induct (language_extensions true) pats with
  | case1 rel => simp [dirRecs]
  | case2 rel name lc rest ih =>
    rw [dirRecs, dirRecs]
    exact ih
  | case3 rel name listable children rest ih1 ih2 =>
    rw [dirRecs, dirRecs, List.filter_append, ← ih2]
    by_cases hp : prunedDir pats rel name
    · rw [if_pos hp, if_pos hp]
      rfl
    · rw [if_neg hp, if_neg hp]
      rcases listable with _ | _
      · simp
      · simp only [if_true]
        rw [List.filter_append, ← ih1, fileRecs_code_filter]

theorem scanRecs_code_filter (repo : List Entry) (verbose : Bool) (pats : List String) :
    scanRecs repo { verbose := verbose, include_docs := false, exclude_patterns := pats } =
      (scanRecs repo { verbose := verbose, include_docs := true, exclude_patterns := pats }).filter
        (fun r => codeLangs.contains r.language) := by
  rw [scanRecs, scanRecs]
  simp only []
  rw [List.filter_append, fileRecs_code_filter, dirRecs_code_filter]

/-! ## Per-language totals as sums over the record list -/

theorem statVal_bump (m : List (String × Nat)) (k lang : String) (n : Nat) :
    statVal (bump m k n) lang = statVal m lang + (if lang = k then n else 0) := by
  by_cases h : lang = k
  · subst h
    simp [statVal, alookup_bump_self]
  · simp [statVal, alookup_bump_ne m k lang n h, h]

theorem foldl_step_statVal (verbose : Bool) :
    ∀ (recs : List FileRec) (s : ScanState) (lang : String),
      statVal (List.foldl (step verbose) s recs).stats lang =
        statVal s.stats lang +
          ((recs.filter (fun r => r.language = lang)).map (fun r => r.lineCount)).sum := by
  intro recs
  induction recs with
  | nil => intro s lang; simp
  | cons r rest ih =>
    intro s lang
    rw [List.foldl_cons, ih]
    simp only [step, statVal_bump]
    by_cases h : r.language = lang
    · subst h
      simp
      omega
    · simp [h, Ne.symm h]

theorem foldl_step_total (verbose : Bool) :
    ∀ (recs : List FileRec) (s : ScanState),
      (List.foldl (step verbose) s recs).total_lines =
        s.total_lines + (recs.map (fun r => r.lineCount)).sum := by
  intro recs
  induction recs with
  | nil => intro s; simp
  | cons r rest ih =>
    intro s
    rw [List.foldl_cons, ih]
    simp [step]
    omega

theorem sum_le_of_sublist :
    ∀ (l1 l2 : List Nat), l1.Sublist l2 → l1.sum ≤ l2.sum := by
  intro l1 l2 h
  induction h with
  | slnil => simp
  | cons a h ih => simp; omega
  | cons₂ a h ih => simp; omega

/-! ## Languages of counted records come from the active table -/

theorem mem_countedOfFile_language (langExt : List (String × String)) (pats : List String)
    (rel : List String) (name : String) (lc : Option Nat) (r : FileRec)
    (h : r ∈ countedOfFile langExt pats rel name lc) :
    r.language ∈ langExt.map (fun p => p.2) := by
  rcases he : should_exclude_path (joinRel rel name) pats with _ | _
  · rcases hc : alookup langExt (splitextExt name) with _ | w
    · rcases lc with _ | n <;> simp [countedOfFile, classifyFile, he, hc] at h
    · rcases lc with _ | n
      · simp [countedOfFile, classifyFile, he, hc] at h
      · simp [countedOfFile, classifyFile, he, hc] at h
        rw [h]
        exact alookup_mem_values langExt (splitextExt name) w hc
  · simp [countedOfFile, classifyFile, he] at h

theorem mem_fileRecs_language (langExt : List (String × String)) (pats : List String)
    (rel : List String) : ∀ (es : List Entry) (r : FileRec),
      r ∈ fileRecs langExt pats rel es → r.language ∈ langExt.map (fun p => p.2) := by
  intro es
  induction es with
  | nil => intro r h; simp [fileRecs] at h
  | cons e rest ih =>
    intro r h
    rcases e with ⟨name, lc⟩ | ⟨name, listable, children⟩
    · rw [fileRecs, List.mem_append] at h
      rcases h with h | h
      · exact mem_countedOfFile_language langExt pats rel name lc r h
      · exact ih r h
    · rw [fileRecs] at h
      exact ih r h

theorem mem_dirRecs_language (langExt : List (String × String)) (pats : List String) :
    ∀ (rel : List String) (es : List Entry) (r : FileRec),
      r ∈ dirRecs langExt pats rel es → r.language ∈ langExt.map (fun p => p.2) := by
  intro rel es
  induction rel, es using dirRecs.induct langExt pats with
  | case1 rel => intro r h; simp [dirRecs] at h
  | case2 rel name lc rest ih =>
    intro r h
    rw [dirRecs] at h
    exact ih r h
  | case3 rel name listable children rest ih1 ih2 =>
    intro r h
    rw [dirRecs, List.mem_append] at h
    rcases h with h | h
    · by_cases hp : prunedDir pats rel name
      · rw [if_pos hp] at h
        simp at h
      · rw [if_neg hp] at h
        rcases listable with _ | _
        · simp at h
        · simp only [if_true, List.mem_append] at h
          rcases h with h | h
          · exact mem_fileRecs_language langExt pats (rel ++ [name]) children r h
          · exact ih1 r h
    · exact ih2 r h

theorem mem_scanRecs_language (repo : List Entry) (opts : Options) (r : FileRec)
    (h : r ∈ scanRecs repo opts) :
    r.language ∈ (language_extensions opts.include_docs).map (fun p => p.2) := by
  rw [scanRecs, List.mem_append] at h
  rcases h with h | h
  · exact mem_fileRecs_language _ _ _ repo r h
  · exact mem_dirRecs_language _ _ _ repo r h

theorem filter_code_filter_lang (recs : List FileRec) (lang : String)
    (hL : codeLangs.contains lang = true) :
    (recs.filter (fun r => codeLangs.contains r.language)).filter
        (fun r => r.language = lang) =
      recs.filter (fun r => r.language = lang) := by
  have hL2 : lang ∈ codeLangs := by simpa using hL
  rw [List.filter_filter]
  apply List.filter_congr
  intro r _
  by_cases h : r.language = lang
  · simp [h, hL2]
  · simp [h]

/-- C7.  Turning `include_docs` on never decreases the grand total,
never removes a language from the results, never changes the total of a
code-tier language, and any language it adds is a documentation-tier
one — and the documentation tier is exactly Markdown, ReStructuredText
and Text. -/
theorem C7_include_docs_monotone (repo : List Entry) (verbose : Bool) (pats : List String) :
    ((get_language_stats repo
        { verbose := verbose, include_docs := false, exclude_patterns := pats }).total_lines ≤
      (get_language_stats repo
        { verbose := verbose, include_docs := true, exclude_patterns := pats }).total_lines) ∧
    (∀ lang, keyMem (get_language_stats repo
        { verbose := verbose, include_docs := false, exclude_patterns := pats }).stats lang = true →
      keyMem (get_language_stats repo
        { verbose := verbose, include_docs := true, exclude_patterns := pats }).stats lang = true) ∧
    (∀ lang, codeLangs.contains lang = true →
      statVal (get_language_stats repo
        { verbose := verbose, include_docs := true, exclude_patterns := pats }).stats lang =
      statVal (get_language_stats repo
        { verbose := verbose, include_docs := false, exclude_patterns := pats }).stats lang) ∧
    (∀ lang, keyMem (get_language_stats repo
        { verbose := verbose, include_docs := true, exclude_patterns := pats }).stats lang = true →
      keyMem (get_language_stats repo
        { verbose := verbose, include_docs := false, exclude_patterns := pats }).stats lang = false →
      docLangs.contains lang = true) ∧
    docLangs = [("Markdown"), ("ReStructuredText"), ("Text")] := by
  have hrecs :
      scanRecs repo { verbose := verbose, include_docs := false, exclude_patterns := pats } =
        (scanRecs repo { verbose := verbose, include_docs := true, exclude_patterns := pats }).filter
          (fun r => codeLangs.contains r.language) :=
    scanRecs_code_filter repo verbose pats
  refine ⟨?_, ?_, ?_, ?_, rfl⟩
  · rw [get_language_stats_eq_fold, get_language_stats_eq_fold,
      foldl_step_total, foldl_step_total, hrecs]
    simp only [Nat.zero_add]
    exact sum_le_of_sublist _ _ (List.Sublist.map _ (List.filter_sublist _))
  · intro lang h
    rw [get_language_stats_eq_fold, foldl_step_keyMem] at h
    rw [get_language_stats_eq_fold, foldl_step_keyMem]
    simp [keyMem, alookup] at h ⊢
    obtain ⟨r, hrmem, hrl⟩ := h
    rw [hrecs] at hrmem
    exact ⟨r, List.mem_of_mem_filter hrmem, hrl⟩
  · intro lang hL
    rw [get_language_stats_eq_fold, get_language_stats_eq_fold,
      foldl_step_statVal, foldl_step_statVal, hrecs, filter_code_filter_lang _ _ hL]
  · intro lang hT hF
    rw [get_language_stats_eq_fold, foldl_step_keyMem] at hT hF
    simp [keyMem, alookup] at hT hF
    obtain ⟨r, hrmem, hrl⟩ := hT
    have hpred : codeLangs.contains r.language = false := by
      rcases hp : codeLangs.contains r.language with _ | _
      · rfl
      · exfalso
        refine hF r ?_ hrl
        rw [hrecs]
        exact List.mem_filter.mpr ⟨hrmem, hp⟩
    have hvals := mem_scanRecs_language repo
      { verbose := verbose, include_docs := true, exclude_patterns := pats } r hrmem
    rw [language_extensions_true, List.map_append] at hvals
    simp only [List.mem_append] at hvals
    rcases hvals with hv | hv
    · exfalso
      have : codeLangs.contains r.language = true := by
        simpa [codeLangs] using hv
      rw [this] at hpred
      exact Bool.noConfusion hpred
    · rw [← hrl]
      simpa [docLangs] using hv

/-- C7, instantiated on a tree with one Python and one Markdown file:
the Python total is unchanged by `include_docs`, Markdown is in the
documentation tier, and Python stays present. -/
theorem C7_include_docs_monotone_witness :
    statVal (get_language_stats
        [Entry.file ("a.py") (some 2), Entry.file ("r.md") (some 3)]
        { verbose := false, include_docs := true, exclude_patterns := [] }).stats
      ("Python") =
    statVal (get_language_stats
        [Entry.file ("a.py") (some 2), Entry.file ("r.md") (some 3)]
        { verbose := false, include_docs := false, exclude_patterns := [] }).stats
      ("Python") ∧
    docLangs.contains ("Markdown") = true :=
  ⟨(C7_include_docs_monotone
      [Entry.file ("a.py") (some 2), Entry.file ("r.md") (some 3)] false []).2.2.1
      ("Python") (by decide),
   (C7_include_docs_monotone
      [Entry.file ("a.py") (some 2), Entry.file ("r.md") (some 3)] false []).2.2.2.1
      ("Markdown")
      (by simp [get_language_stats, walkDirs, walkFiles, processFile, classifyFile,
        should_exclude_path, splitextExt, lastDotIdx, joinRel, joinPath, alookup,
        language_extensions, code_extensions, doc_extensions, bump, keyMem])
      (by simp [get_language_stats, walkDirs, walkFiles, processFile, classifyFile,
        should_exclude_path, splitextExt, lastDotIdx, joinRel, joinPath, alookup,
        language_extensions, code_extensions, doc_extensions, bump, keyMem])⟩

/-! ## Well-formed trees and relative-path uniqueness

`file_stats[language][rel_path] = n` overwrites, so the verbose
per-language invariant needs every counted file to have a distinct
relative path.  On a real filesystem this always holds: sibling names
are distinct, and a name is nonempty and free of the path separator.
`wfList` captures exactly that. -/

/-- A legal filesystem entry name: nonempty and without a path
separator. -/
def validName (s : String) : Bool :=
  !(s.data.isEmpty) && !(s.data.contains '/')

/-- The name of an entry. -/
def entryName : Entry → String
  | Entry.file name _ => name
  | Entry.dir name _ _ => name

/-- A tree is well formed when every name is legal and sibling names
are distinct, recursively. -/
def wfList : List Entry → Bool
  | [] => true
  | Entry.file name lc :: rest =>
    validName name && !((rest.map entryName).contains name) && wfList rest
  | Entry.dir name listable children :: rest =>
    validName name && !((rest.map entryName).contains name) &&
      wfList children && wfList rest
termination_by es => sizeOf es

theorem takeWhile_no_slash (r : List Char) :
    ∀ (l : List Char), (∀ c ∈ l, ¬ c = '/') →
      (l ++ '/' :: r).takeWhile (fun c => !(c = '/' : Bool)) = l := by
  intro l h
  induction l with
  | nil => simp [List.takeWhile]
  | cons c rest ih =>
    rw [List.cons_append, List.takeWhile_cons]
    have hc : ¬ c = '/' := h c (List.mem_cons_self c rest)
    simp only [hc]
    rw [ih (fun c2 hc2 => h c2 (List.mem_cons_of_mem c hc2))]
    simp

theorem dropWhile_no_slash (r : List Char) :
    ∀ (l : List Char), (∀ c ∈ l, ¬ c = '/') →
      (l ++ '/' :: r).dropWhile (fun c => !(c = '/' : Bool)) = '/' :: r := by
  intro l h
  induction l with
  | nil => simp [List.dropWhile]
  | cons c rest ih =>
    rw [List.cons_append, List.dropWhile_cons]
    have hc : ¬ c = '/' := h c (List.mem_cons_self c rest)
    simp only [hc]
    rw [ih (fun c2 hc2 => h c2 (List.mem_cons_of_mem c hc2))]
    simp

theorem validName_ne_empty (s : String) (h : validName s = true) : s.data ≠ [] := by
  rw [validName] at h
  simp at h
  simpa using h.1

theorem validName_no_slash (s : String) (h : validName s = true) :
    ∀ c ∈ s.data, ¬ c = '/' := by
  rw [validName] at h
  simp at h
  intro c hc he
  rw [he] at hc
  exact h.2 hc

theorem joinPath_nil : joinPath [] = "" := rfl

theorem joinPath_single (x : String) : joinPath [x] = x := rfl

theorem joinPath_cons_cons (x y : String) (ys : List String) :
    joinPath (x :: y :: ys) = x ++ "/" ++ joinPath (y :: ys) := rfl

theorem data_sep (x a : String) : (x ++ "/" ++ a).data = x.data ++ '/' :: a.data := by
  rw [String.data_append, String.data_append]
  simp [show ("/" : String).data = ['/'] from rfl]

theorem joinPath_inj :
    ∀ (xs ys : List String), xs.all validName = true → ys.all validName = true →
      joinPath xs = joinPath ys → xs = ys := by
  intro xs
  induction xs with
  | nil =>
    intro ys _ hys h
    rcases ys with _ | ⟨y, ys'⟩
    · rfl
    · exfalso
      simp at hys
      rcases ys' with _ | ⟨w, ws⟩
      · rw [joinPath_nil, joinPath_single] at h
        exact validName_ne_empty y hys.1 (by rw [← h])
      · rw [joinPath_nil, joinPath_cons_cons] at h
        have hd := congrArg String.data h
        rw [data_sep] at hd
        simp at hd
  | cons x xs' ih =>
    intro ys hxs hys h
    rcases ys with _ | ⟨y, ys'⟩
    · exfalso
      simp at hxs
      rcases xs' with _ | ⟨z, zs⟩
      · rw [joinPath_single, joinPath_nil] at h
        exact validName_ne_empty x hxs.1 (by rw [h])
      · rw [joinPath_cons_cons, joinPath_nil] at h
        have hd := congrArg String.data h
        rw [data_sep] at hd
        simp at hd
    · simp at hxs hys
      rcases xs' with _ | ⟨z, zs⟩
      · rcases ys' with _ | ⟨w, ws⟩
        · rw [joinPath_single, joinPath_single] at h
          rw [h]
        · exfalso
          rw [joinPath_single, joinPath_cons_cons] at h
          have hd := congrArg String.data h
          rw [data_sep] at hd
          have hsl : '/' ∈ x.data := by
            rw [hd]
            exact List.mem_append.mpr (Or.inr (List.mem_cons_self _ _))
          exact validName_no_slash x hxs.1 '/' hsl rfl
      · rcases ys' with _ | ⟨w, ws⟩
        · exfalso
          rw [joinPath_cons_cons, joinPath_single] at h
          have hd := congrArg String.data h
          rw [data_sep] at hd
          have hsl : '/' ∈ y.data := by
            rw [← hd]
            exact List.mem_append.mpr (Or.inr (List.mem_cons_self _ _))
          exact validName_no_slash y hys.1 '/' hsl rfl
        · rw [joinPath_cons_cons, joinPath_cons_cons] at h
          have hd := congrArg String.data h
          rw [data_sep, data_sep] at hd
          have hx := validName_no_slash x hxs.1
          have hy := validName_no_slash y hys.1
          have hxy : x.data = y.data := by
            rw [← takeWhile_no_slash (joinPath (z :: zs)).data x.data hx,
              ← takeWhile_no_slash (joinPath (w :: ws)).data y.data hy, hd]
          have htl : ('/' :: (joinPath (z :: zs)).data) = ('/' :: (joinPath (w :: ws)).data) := by
            rw [← dropWhile_no_slash (joinPath (z :: zs)).data x.data hx,
              ← dropWhile_no_slash (joinPath (w :: ws)).data y.data hy, hd]
          have h1 : x = y := String.ext hxy
          have h2 : joinPath (z :: zs) = joinPath (w :: ws) :=
            String.ext (List.tail_eq_of_cons_eq htl)
          rw [h1, ih (w :: ws) (by simpa using hxs.2) (by simpa using hys.2) h2]

/-- Component lists of the files of one directory level. -/
def levelFileComps (rel : List String) : List Entry → List (List String)
  | [] => []
  | Entry.file name _ :: rest => (rel ++ [name]) :: levelFileComps rel rest
  | Entry.dir _ _ _ :: rest => levelFileComps rel rest

/-- Component lists of all files strictly below one directory level,
in walk order. -/
def subdirComps : List String → List Entry → List (List String)
  | _, [] => []
  | rel, Entry.file _ _ :: rest => subdirComps rel rest
  | rel, Entry.dir name _ children :: rest =>
    (levelFileComps (rel ++ [name]) children ++ subdirComps (rel ++ [name]) children) ++
      subdirComps rel rest
termination_by _ es => sizeOf es

/-- Component lists of all files of a tree, in tree order. -/
def treeComps : List String → List Entry → List (List String)
  | _, [] => []
  | rel, Entry.file name _ :: rest => (rel ++ [name]) :: treeComps rel rest
  | rel, Entry.dir name _ children :: rest =>
    treeComps (rel ++ [name]) children ++ treeComps rel rest
termination_by _ es => sizeOf es

theorem level_subdir_perm_tree :
    ∀ (rel : List String) (es : List Entry),
      (levelFileComps rel es ++ subdirComps rel es).Perm (treeComps rel es) := by
  intro rel es
  induction rel, es using treeComps.induct with
  | case1 rel =>
    rw [levelFileComps, subdirComps, treeComps]
    rfl
  | case2 rel name lc rest ih =>
    rw [levelFileComps, subdirComps, treeComps, List.cons_append]
    exact ih.cons _
  | case3 rel name listable children rest ih1 ih2 =>
    rw [levelFileComps, subdirComps, treeComps]
    have hstep : ∀ (l m n : List (List String)), (l ++ (m ++ n)).Perm (m ++ (l ++ n)) := by
      intro l m n
      rw [← List.append_assoc, ← List.append_assoc]
      exact List.Perm.append_right n List.perm_append_comm
    exact (hstep _ _ _).trans (List.Perm.append ih1 ih2)

theorem mem_treeComps :
    ∀ (rel : List String) (es : List Entry) (c : List String), c ∈ treeComps rel es →
      ∃ n suf, n ∈ es.map entryName ∧ c = rel ++ n :: suf := by
  intro rel es
  induction rel, es using treeComps.induct with
  | case1 rel =>
    intro c h
    rw [treeComps] at h
    simp at h
  | case2 rel name lc rest ih =>
    intro c h
    rw [treeComps] at h
    rcases List.mem_cons.mp h with h | h
    · exact ⟨name, [], by simp [entryName], by simpa using h⟩
    · obtain ⟨n, suf, hn, hc⟩ := ih c h
      exact ⟨n, suf, by simp [entryName]; right; simpa using hn, hc⟩
  | case3 rel name listable children rest ih1 ih2 =>
    intro c h
    rw [treeComps, List.mem_append] at h
    rcases h with h | h
    · obtain ⟨n, suf, hn, hc⟩ := ih1 c h
      refine ⟨name, n :: suf, by simp [entryName], ?_⟩
      rw [hc, List.append_assoc]
      rfl
    · obtain ⟨n, suf, hn, hc⟩ := ih2 c h
      exact ⟨n, suf, by simp [entryName]; right; simpa using hn, hc⟩

theorem mem_treeComps_valid :
    ∀ (rel : List String) (es : List Entry) (c : List String),
      rel.all validName = true → wfList es = true →
      c ∈ treeComps rel es → c.all validName = true := by
  intro rel es
  induction rel, es using treeComps.induct with
  | case1 rel =>
    intro c _ _ h
    rw [treeComps] at h
    simp at h
  | case2 rel name lc rest ih =>
    intro c hrel hwf h
    rw [wfList] at hwf
    simp at hwf
    rw [treeComps] at h
    rcases List.mem_cons.mp h with h | h
    · rw [h]
      simp at hrel ⊢
      exact ⟨hrel, hwf.1.1⟩
    · exact ih c hrel hwf.2 h
  | case3 rel name listable children rest ih1 ih2 =>
    intro c hrel hwf h
    rw [wfList] at hwf
    simp at hwf
    rw [treeComps, List.mem_append] at h
    rcases h with h | h
    · refine ih1 c ?_ hwf.1.2 h
      simp at hrel ⊢
      exact ⟨hrel, hwf.1.1.1⟩
    · exact ih2 c hrel hwf.2 h

theorem treeComps_nodup :
    ∀ (rel : List String) (es : List Entry),
      rel.all validName = true → wfList es = true →
      ((treeComps rel es).map joinPath).Nodup := by
  intro rel es
  induction rel, es using treeComps.induct with
  | case1 rel =>
    intro _ _
    rw [treeComps]
    simp
  | case2 rel name lc rest ih =>
    intro hrel hwf
    rw [wfList] at hwf
    simp at hwf
    rw [treeComps, List.map_cons]
    refine List.Nodup.cons ?_ (ih hrel hwf.2)
    intro hmem
    simp only [List.mem_map] at hmem
    obtain ⟨c, hc, hjc⟩ := hmem
    have hcv : c.all validName = true :=
      mem_treeComps_valid rel rest c hrel hwf.2 hc
    have hhv : (rel ++ [name]).all validName = true := by
      simp at hrel ⊢
      exact ⟨hrel, hwf.1.1⟩
    have hceq : c = rel ++ [name] := joinPath_inj c (rel ++ [name]) hcv hhv hjc
    obtain ⟨n, suf, hn, hshape⟩ := mem_treeComps rel rest c hc
    rw [hceq] at hshape
    have := List.append_cancel_left hshape
    have hname : n = name := by
      injection this with h1 _
      exact h1.symm
    rw [hname] at hn
    obtain ⟨e, he, hee⟩ := List.mem_map.mp hn
    exact hwf.1.2 e he hee
  | case3 rel name listable children rest ih1 ih2 =>
    intro hrel hwf
    rw [wfList] at hwf
    simp at hwf
    have hrelname : (rel ++ [name]).all validName = true := by
      simp at hrel ⊢
      exact ⟨hrel, hwf.1.1.1⟩
    rw [treeComps, List.map_append]
    refine List.Nodup.append (ih1 hrelname hwf.1.2) (ih2 hrel hwf.2) ?_
    intro x hx1 hx2
    simp only [List.mem_map] at hx1 hx2
    obtain ⟨c1, hc1, hj1⟩ := hx1
    obtain ⟨c2, hc2, hj2⟩ := hx2
    have hv1 : c1.all validName = true :=
      mem_treeComps_valid (rel ++ [name]) children c1 hrelname hwf.1.2 hc1
    have hv2 : c2.all validName = true :=
      mem_treeComps_valid rel rest c2 hrel hwf.2 hc2
    have hceq : c1 = c2 := joinPath_inj c1 c2 hv1 hv2 (hj1.trans hj2.symm)
    obtain ⟨n1, s1, hn1, hs1⟩ := mem_treeComps (rel ++ [name]) children c1 hc1
    obtain ⟨n2, s2, hn2, hs2⟩ := mem_treeComps rel rest c2 hc2
    rw [hceq, hs2] at hs1
    rw [List.append_assoc] at hs1
    have := (List.append_cancel_left hs1.symm)
    have hname : n2 = name := by
      rw [show [name] ++ n1 :: s1 = name :: n1 :: s1 from rfl] at this
      injection this with h1 _
      exact h1.symm
    rw [hname] at hn2
    obtain ⟨e, he, hee⟩ := List.mem_map.mp hn2
    exact hwf.1.1.2 e he hee

theorem countedOfFile_path_sublist (langExt : List (String × String)) (pats : List String)
    (rel : List String) (name : String) (lc : Option Nat) :
    ((countedOfFile langExt pats rel name lc).map (fun r => r.relPath)).Sublist
      [joinPath (rel ++ [name])] := by
  rcases hcl : classifyFile langExt pats (joinRel rel name) name with _ | language <;>
    rw [show joinRel rel name = joinPath (rel ++ [name]) from rfl] at hcl <;>
    rcases lc with _ | n <;>
    simp [countedOfFile, joinRel, hcl]

theorem fileRecs_paths_sublist (langExt : List (String × String)) (pats : List String)
    (rel : List String) : ∀ (es : List Entry),
      ((fileRecs langExt pats rel es).map (fun r => r.relPath)).Sublist
        ((levelFileComps rel es).map joinPath) := by
  intro es
  induction es with
  | nil =>
    rw [fileRecs, levelFileComps]
    simp
  | cons e rest ih =>
    rcases e with ⟨name, lc⟩ | ⟨name, listable, children⟩
    · rw [fileRecs, levelFileComps, List.map_append, List.map_cons]
      exact List.Sublist.append (countedOfFile_path_sublist langExt pats rel name lc) ih
    · rw [fileRecs, levelFileComps]
      exact ih

theorem dirRecs_paths_sublist (langExt : List (String × String)) (pats : List String) :
    ∀ (rel : List String) (es : List Entry),
      ((dirRecs langExt pats rel es).map (fun r => r.relPath)).Sublist
        ((subdirComps rel es).map joinPath) := by
  intro rel es
  induction rel, es using dirRecs.induct langExt pats with
  | case1 rel =>
    rw [dirRecs, subdirComps]
    simp
  | case2 rel name lc rest ih =>
    rw [dirRecs, subdirComps]
    exact ih
  | case3 rel name listable children rest ih1 ih2 =>
    rw [dirRecs, subdirComps, List.map_append, List.map_append]
    refine List.Sublist.append ?_ ih2
    by_cases hp : prunedDir pats rel name
    · rw [if_pos hp]
      simp
    · rw [if_neg hp]
      rcases listable with _ | _
      · simp
      · simp only [if_true]
        rw [List.map_append, List.map_append]
        exact List.Sublist.append (fileRecs_paths_sublist langExt pats (rel ++ [name]) children) ih1

/-- On a well-formed tree the counted files have pairwise distinct
relative paths. -/
theorem scanRecs_paths_nodup (repo : List Entry) (opts : Options)
    (hwf : wfList repo = true) :
    ((scanRecs repo opts).map (fun r => r.relPath)).Nodup := by
  have hnd : ((treeComps [] repo).map joinPath).Nodup :=
    treeComps_nodup [] repo (by simp) hwf
  have hperm : ((levelFileComps [] repo ++ subdirComps [] repo).map joinPath).Perm
      ((treeComps [] repo).map joinPath) :=
    (level_subdir_perm_tree [] repo).map joinPath
  have hnd2 : ((levelFileComps [] repo ++ subdirComps [] repo).map joinPath).Nodup :=
    hperm.symm.nodup hnd
  rw [List.map_append] at hnd2
  refine hnd2.sublist ?_
  rw [scanRecs, List.map_append]
  exact List.Sublist.append
    (fileRecs_paths_sublist _ _ [] repo) (dirRecs_paths_sublist _ _ [] repo)

/-! ## The verbose per-language invariant -/

/-- The keys of an association list. -/
def mKeys {α : Type} (m : List (String × α)) : List String :=
  m.map (fun p => p.1)

theorem alookup_eq_none_iff {α : Type} (m : List (String × α)) (k : String) :
    alookup m k = none ↔ k ∉ mKeys m := by
  induction m with
  | nil => simp [alookup, mKeys]
  | cons p rest ih =>
    rcases p with ⟨k0, v⟩
    by_cases h : k0 = k
    · subst h
      simp [alookup, mKeys]
    · simp [alookup, h, mKeys, Ne.symm h] at ih ⊢
      exact ih

theorem sumVals_aset_absent (m : List (String × Nat)) (k : String) (v : Nat)
    (h : k ∉ mKeys m) : sumVals (aset m k v) = sumVals m + v := by
  rw [aset_of_absent m k v ((alookup_eq_none_iff m k).mpr h)]
  simp [sumVals]

theorem mem_mKeys_aset {α : Type} (m : List (String × α)) (k k2 : String) (v : α)
    (h : k2 ∈ mKeys (aset m k v)) : k2 ∈ mKeys m ∨ k2 = k := by
  induction m with
  | nil =>
    simp [aset, mKeys] at h
    exact Or.inr h
  | cons p rest ih =>
    rcases p with ⟨k0, w⟩
    by_cases h0 : k0 = k
    · subst h0
      rw [aset, if_pos rfl, mKeys, List.map_cons] at h
      rw [mKeys, List.map_cons]
      exact Or.inl h
    · rw [aset, if_neg h0, mKeys, List.map_cons] at h
      rcases List.mem_cons.mp h with h1 | h1
      · rw [mKeys, List.map_cons]
        exact Or.inl (List.mem_cons.mpr (Or.inl h1))
      · rcases ih h1 with h2 | h2
        · rw [mKeys, List.map_cons]
          exact Or.inl (List.mem_cons.mpr (Or.inr h2))
        · exact Or.inr h2

theorem fsGet_fsSet_self (fs : List (String × List (String × Nat))) (lang p : String)
    (n : Nat) : fsGet (fsSet fs lang p n) lang = aset (fsGet fs lang) p n := by
  rw [fsSet, fsGet, alookup_aset_self]
  rfl

theorem fsGet_fsSet_ne (fs : List (String × List (String × Nat))) (lang lang2 p : String)
    (n : Nat) (h : lang2 ≠ lang) : fsGet (fsSet fs lang p n) lang2 = fsGet fs lang2 := by
  rw [fsSet, fsGet, alookup_aset_ne _ _ _ _ h]
  rfl

/-- Folding steps in verbose mode preserves the per-language invariant,
provided the incoming record paths are fresh and pairwise distinct. -/
theorem foldl_step_file_sum :
    ∀ (recs : List FileRec) (s : ScanState),
      (∀ lang, statVal s.stats lang = sumVals (fsGet s.file_stats lang)) →
      (∀ r ∈ recs, ∀ lang, r.relPath ∉ mKeys (fsGet s.file_stats lang)) →
      ((recs.map (fun r => r.relPath)).Nodup) →
      ∀ lang, statVal (List.foldl (step true) s recs).stats lang =
        sumVals (fsGet (List.foldl (step true) s recs).file_stats lang) := by
  intro recs
  induction recs with
  | nil =>
    intro s hinv _ _ lang
    exact hinv lang
  | cons r rest ih =>
    intro s hinv hfresh hnd lang
    rw [List.map_cons, List.nodup_cons] at hnd
    rw [List.foldl_cons]
    refine ih (step true s r) ?_ ?_ hnd.2 lang
    · intro lang2
      rw [step]
      simp only [if_true]
      rw [statVal_bump]
      by_cases h2 : lang2 = r.language
      · subst h2
        rw [fsGet_fsSet_self, if_pos rfl,
          sumVals_aset_absent _ _ _ (hfresh r (List.mem_cons_self r rest) r.language),
          hinv r.language]
      · rw [fsGet_fsSet_ne _ _ _ _ _ h2, if_neg h2, hinv lang2]
        simp
    · intro r2 hr2 lang2
      rw [step]
      simp only [if_true]
      intro hmem
      by_cases h2 : lang2 = r.language
      · subst h2
        rw [fsGet_fsSet_self] at hmem
        rcases mem_mKeys_aset _ _ _ _ hmem with h3 | h3
        · exact hfresh r2 (List.mem_cons_of_mem r hr2) r.language h3
        · exact hnd.1 (h3 ▸ List.mem_map_of_mem (fun x => x.relPath) hr2)
      · rw [fsGet_fsSet_ne _ _ _ _ _ h2] at hmem
        exact hfresh r2 (List.mem_cons_of_mem r hr2) lang2 hmem

/-- C5.  In verbose mode, on a well-formed tree (legal entry names,
distinct among siblings — as on a real filesystem), every language's
total equals the sum of its recorded per-file counts. -/
theorem C5_stats_eq_sum_file_stats (repo : List Entry) (opts : Options)
    (hv : opts.verbose = true) (hwf : wfList repo = true) :
    ∀ lang, statVal (get_language_stats repo opts).stats lang =
      sumVals (fsGet (get_language_stats repo opts).file_stats lang) := by
  intro lang
  rw [get_language_stats_eq_fold, hv]
  refine foldl_step_file_sum (scanRecs repo opts) _ ?_ ?_
    (scanRecs_paths_nodup repo opts hwf) lang
  · intro lang2
    simp [statVal, sumVals, fsGet, alookup]
  · intro r _ lang2
    simp [fsGet, alookup, mKeys]

/-- C5, instantiated on a two-file tree with a subdirectory. -/
theorem C5_stats_eq_sum_file_stats_witness :
    statVal (get_language_stats
        [Entry.file ("a.py") (some 2),
         Entry.dir ("src") true [Entry.file ("b.py") (some 3)]]
        { verbose := true, include_docs := false, exclude_patterns := [] }).stats
      ("Python") =
    sumVals (fsGet (get_language_stats
        [Entry.file ("a.py") (some 2),
         Entry.dir ("src") true [Entry.file ("b.py") (some 3)]]
        { verbose := true, include_docs := false, exclude_patterns := [] }).file_stats
      ("Python")) :=
  C5_stats_eq_sum_file_stats
    [Entry.file ("a.py") (some 2),
     Entry.dir ("src") true [Entry.file ("b.py") (some 3)]]
    { verbose := true, include_docs := false, exclude_patterns := [] }
    rfl
    (by simp [wfList, validName, entryName])
    ("Python")

end RepoStats
